import Mathlib

/-!
Verification of the `ExpandedMCGate` repository's Barenco-style multi-controlled
gate decomposition (`ExpandedMCGate/ExtendedMCMT/barenco.py`) and the ancilla
dispatch entry point `ExtendedQuantumCircuit.mcx` (`ExpandedMCGate/circuit.py`).

The decomposition emits only two kinds of elementary operations: CNOTs between
control qubits (`Op.toggle`) and singly-controlled applications of a root
operator (`Op.applyGate`).  Root operators are represented syntactically by
`GateExpr` terms mirroring the qiskit call chains in `_get_V_instruction` /
`_get_V_operator`; their action on a target qubit is the `uPower`-th power of
the base unitary U.  On a computational-basis control state the control
register stays classical throughout (CNOTs map basis states to basis states and
a controlled operator does not move its control), so the whole circuit is
faithfully simulated by tracking the control bits and, per target qubit, the
accumulated power of U applied to it (`SimState`, `runOps`).
-/

set_option maxHeartbeats 1000000

namespace ExpandedMCGate

/-- Python `int.bit_length()` computed with explicit fuel (the fuel `n` is
always enough since at most `log2 n + 1` halvings are needed). -/
def bitLenAux : Nat → Nat → Nat
  | 0, _ => 0
  | fuel + 1, n => if n = 0 then 0 else bitLenAux fuel (n / 2) + 1

/-- Python `int.bit_length()`: number of bits needed to represent `n`. -/
def bit_length (n : Nat) : Nat := bitLenAux n n

/-- Python `int.bit_count()` (population count) computed with explicit fuel. -/
def bitCntAux : Nat → Nat → Nat
  | 0, _ => 0
  | fuel + 1, n => if n = 0 then 0 else bitCntAux fuel (n / 2) + n % 2

/-- Python `int.bit_count()`: number of set bits of `n`. -/
def bit_count (n : Nat) : Nat := bitCntAux n n

/-- `gray_code = i ^ i >> 1` from `_general_version` (standard reflected
binary Gray code). -/
def gray (i : Nat) : Nat := i ^^^ (i >>> 1)

/-- Syntactic matrix/gate expressions mirroring the qiskit call chains used in
`barenco.py`: the base gate `U` (`self.gate`), adding one control
(`.control(1)`), the principal fourth root (`.power(1/4)`), and the
inverse/conjugate-transpose (`.inverse()` / `.conjugate().transpose()`). -/
inductive GateExpr where
  | baseGate : GateExpr
  | control1 : GateExpr → GateExpr
  | pow4 : GateExpr → GateExpr
  | dagger : GateExpr → GateExpr
deriving DecidableEq

/-- `_get_V_operator`: `V_matrix = self.gate.control(1).power(1/4)`, then
conjugate-transpose if `inverse` ("Context A": control first, then root). -/
def get_V_operator (inverse : Bool) : GateExpr :=
  let V := GateExpr.pow4 (GateExpr.control1 GateExpr.baseGate)
  if inverse then GateExpr.dagger V else V

/-- `_get_V_instruction`: `V_matrix = self.gate.power(1/4)`, wrapped into a
controlled instruction by `.to_instruction().control(1)`, then `.inverse()` if
`inverse` ("Context B": root first, then control). -/
def get_V_instruction (inverse : Bool) : GateExpr :=
  let V := GateExpr.control1 (GateExpr.pow4 GateExpr.baseGate)
  if inverse then GateExpr.dagger V else V

/-- An elementary operation emitted by the decomposition:
`toggle src dst` is `self.cx(control_qubits[src], control_qubits[dst])`;
`applyGate c t g` is `self.append(g, [control_qubits[c], target_qubits[t]])`
where `g` is a singly-controlled root instruction. -/
inductive Op where
  | toggle : Nat → Nat → Op
  | applyGate : Nat → Nat → GateExpr → Op
deriving DecidableEq

/-- `_2ctrl_version`: V on control 1 for every target, CNOT(0,1), V† on
control 1 for every target, CNOT(0,1), V on control 0 for every target. -/
def emit_2ctrl (m : Nat) : List Op :=
  ((List.range m).map fun t => Op.applyGate 1 t (get_V_instruction false))
    ++ [Op.toggle 0 1]
    ++ ((List.range m).map fun t => Op.applyGate 1 t (get_V_instruction true))
    ++ [Op.toggle 0 1]
    ++ ((List.range m).map fun t => Op.applyGate 0 t (get_V_instruction false))

/-- One iteration of the loop body of `_general_version` at loop counter `i`
with the current value of `previous` (the `i == 0: continue` case emits
nothing). -/
def stepOps (m previous i : Nat) : List Op :=
  if i = 0 then []
  else
    let gray_code := gray i
    let idx := bit_length gray_code - 1
    let diff := bit_length (gray_code ^^^ previous) - 1
    let parity := bit_count gray_code % 2 == 0
    (if idx = diff ∧ i ≠ 1 then [Op.toggle (idx - 1) idx]
     else if i ≠ 1 then [Op.toggle diff idx]
     else [])
      ++ ((List.range m).map fun t => Op.applyGate idx t (get_V_instruction parity))

/-- The loop of `_general_version`: fold over the loop counters threading the
`previous` Gray code (updated to the current code for every `i ≠ 0`). -/
def generalLoop (m : Nat) : Nat → List Nat → List Op
  | _, [] => []
  | previous, i :: rest =>
      stepOps m previous i ++ generalLoop m (if i = 0 then previous else gray i) rest

/-- `_general_version` for `n` control and `m` target qubits:
`for i in range(2**n)` with `previous = 0` initially. -/
def emit_general (n m : Nat) : List Op := generalLoop m 0 (List.range (2 ^ n))

/-- `_build`: dispatch on the number of control qubits — `_2ctrl_version` iff
`len(control_qubits) == 2`, otherwise `_general_version`. -/
def build (n m : Nat) : List Op := if n = 2 then emit_2ctrl m else emit_general n m

/-- The power of the base unitary U that a gate expression realises on its
target (with the single-control wrapper transparent: a controlled `U^e`
applies `U^e` to the target when the control fires).  `.power(1/4)` takes the
principal root, dividing the exponent by 4; the inverse/conjugate-transpose of
a unitary negates the exponent. -/
def uPower : GateExpr → ℚ
  | .baseGate => 1
  | .control1 g => uPower g
  | .pow4 g => uPower g / 4
  | .dagger g => -uPower g

/-- Simulation state on a computational-basis control state: the classical
control bits (indexed like `control_qubits`) and, for each target qubit, the
accumulated power of U applied to it so far. -/
structure SimState where
  ctrl : Nat → Bool
  texp : Nat → ℚ

/-- Standard controlled-unitary semantics of one operation on a basis control
state: a toggle is a CNOT between control qubits; a controlled root applies
its operator's U-power to the target iff its control bit is set. -/
def applyOp (s : SimState) : Op → SimState
  | .toggle src dst =>
      { s with ctrl := Function.update s.ctrl dst (Bool.xor (s.ctrl src) (s.ctrl dst)) }
  | .applyGate c t g =>
      if s.ctrl c then
        { s with texp := Function.update s.texp t (s.texp t + uPower g) }
      else s

/-- Run an emitted operation sequence, in emission order. -/
def runOps (ops : List Op) (s : SimState) : SimState := ops.foldl applyOp s

/-- Initial state: control bits `x`, no power of U applied to any target yet. -/
def initState (x : Nat → Bool) : SimState := ⟨x, fun _ => 0⟩

/-- Net power of U applied to target `t` by the decomposition for `n` controls
and `m` targets, run on the basis control state `x`. -/
def netPower (n m : Nat) (x : Nat → Bool) (t : Nat) : ℚ :=
  (runOps (build n m) (initState x)).texp t

/-- The all-ones control basis state. -/
def allOnes : Nat → Bool := fun _ => true

/-- Modelled from the spec: the reference semantics "apply U to each target
iff all n control qubits are 1, else identity", expressed as the power of U
applied to each target on a basis control state. -/
def refPower (n : Nat) (x : Nat → Bool) : ℚ :=
  if ∀ j < n, x j = true then 1 else 0

/-- Evolution of the control bits alone: toggles act, controlled roots do not
touch the control register. -/
def ctrlFold : List Op → (Nat → Bool) → (Nat → Bool)
  | [], c => c
  | Op.toggle src dst :: rest, c =>
      ctrlFold rest (Function.update c dst (Bool.xor (c src) (c dst)))
  | Op.applyGate _ _ _ :: rest, c => ctrlFold rest c

/-- Recogniser for toggle (CNOT) operations. -/
def isToggle : Op → Bool
  | .toggle _ _ => true
  | _ => false

/-- Recogniser for controlled-root applications. -/
def isApplyGate : Op → Bool
  | .applyGate _ _ _ => true
  | _ => false

/-- Number of toggle (CNOT) operations in an emitted sequence. -/
def toggleCount (ops : List Op) : Nat := ops.countP isToggle

/-- Number of controlled-root applications in an emitted sequence. -/
def rootCount (ops : List Op) : Nat := ops.countP isApplyGate

/-! ### Characterisation of `bit_length` -/

theorem bitLenAux_le_iff :
    ∀ fuel a, a ≤ fuel → ∀ k, (bitLenAux fuel a ≤ k ↔ a < 2 ^ k) := by
  intro fuel
  induction fuel with
  | zero =>
    intro a ha k
    have h0 : a = 0 := by omega
    subst h0
    simp [bitLenAux, Nat.two_pow_pos]
  | succ f ih =>
    intro a ha k
    by_cases h0 : a = 0
    · subst h0
      simp [bitLenAux, Nat.two_pow_pos]
    · cases k with
      | zero =>
        simp only [bitLenAux, h0, if_false, pow_zero]
        omega
      | succ k =>
        have hdiv : a / 2 ≤ f := by omega
        simp only [bitLenAux, h0, if_false]
        rw [Nat.add_le_add_iff_right, ih (a / 2) hdiv k, pow_succ,
          Nat.div_lt_iff_lt_mul (by norm_num)]

theorem bit_length_le_iff (a k : Nat) : bit_length a ≤ k ↔ a < 2 ^ k :=
  bitLenAux_le_iff a a le_rfl k

theorem bit_length_eq (a p : Nat) (h1 : 2 ^ p ≤ a) (h2 : a < 2 ^ (p + 1)) :
    bit_length a = p + 1 := by
  have hle : bit_length a ≤ p + 1 := (bit_length_le_iff _ _).2 h2
  have hgt : ¬ bit_length a ≤ p := fun h => absurd ((bit_length_le_iff _ _).1 h) (by omega)
  omega

theorem bit_length_lt (a k : Nat) (h : a < 2 ^ k) : bit_length a ≤ k :=
  (bit_length_le_iff a k).2 h

/-! ### Bit-level facts about sums with a high power of two, and Gray codes -/

theorem testBit_two_pow_add (N k j : Nat) (hk : k < 2 ^ N) :
    (2 ^ N + k).testBit j = if j < N then k.testBit j else decide (j = N) := by
  rcases Nat.lt_trichotomy j N with h | h | h
  · rw [Nat.testBit_two_pow_add_gt h, if_pos h]
  · subst h
    rw [Nat.testBit_two_pow_add_eq, Nat.testBit_lt_two_pow hk]
    simp
  · have hlt : 2 ^ N + k < 2 ^ j := by
      have h1 : (2 : Nat) ^ N + 2 ^ N = 2 ^ (N + 1) := by rw [pow_succ]; ring
      have h2 : (2 : Nat) ^ (N + 1) ≤ 2 ^ j := Nat.pow_le_pow_right (by norm_num) h
      omega
    rw [Nat.testBit_lt_two_pow hlt, if_neg (by omega)]
    simp
    omega

theorem two_pow_add_eq_xor (N k : Nat) (hk : k < 2 ^ N) : 2 ^ N + k = 2 ^ N ^^^ k := by
  apply Nat.eq_of_testBit_eq
  intro j
  rw [testBit_two_pow_add N k j hk, Nat.testBit_xor, Nat.testBit_two_pow]
  by_cases h : j < N
  · simp [h, show ¬ N = j by omega]
  · by_cases h2 : j = N
    · subst h2
      simp [h, Nat.testBit_lt_two_pow hk]
    · have hkj : k < 2 ^ j := lt_of_lt_of_le hk (Nat.pow_le_pow_right (by norm_num) (by omega))
      simp [h, h2, show ¬ N = j by omega, Nat.testBit_lt_two_pow hkj]

theorem gray_zero : gray 0 = 0 := rfl

theorem two_pow_succ_shiftRight (p : Nat) : (2 ^ (p + 1)) >>> 1 = 2 ^ p := by
  rw [Nat.shiftRight_one]
  have h : (2 : Nat) ^ (p + 1) = 2 * 2 ^ p := by rw [pow_succ]; ring
  omega

theorem gray_two_pow (p : Nat) : gray (2 ^ (p + 1)) = 2 ^ (p + 1) ^^^ 2 ^ p := by
  unfold gray
  rw [two_pow_succ_shiftRight]

theorem gray_two_pow_sub_one (p : Nat) :
    gray (2 ^ (p + 1) - 1) = (2 ^ (p + 1) - 1) ^^^ (2 ^ p - 1) := by
  unfold gray
  rw [Nat.shiftRight_one]
  have h : (2 : Nat) ^ (p + 1) = 2 * 2 ^ p := by rw [pow_succ]; ring
  have h2 : (0 : Nat) < 2 ^ p := Nat.two_pow_pos p
  congr 1
  omega

/-- The Gray codes of `2 ^ (p+1)` and `2 ^ (p+1) - 1` differ exactly in bit
`p + 1`: the first toggle of each Gray-code "block" is sourced from the
immediately preceding control index. -/
theorem grayStep_two_pow (p : Nat) :
    gray (2 ^ (p + 1)) ^^^ gray (2 ^ (p + 1) - 1) = 2 ^ (p + 1) := by
  rw [gray_two_pow, gray_two_pow_sub_one]
  have hpos : (0 : Nat) < 2 ^ p := Nat.two_pow_pos p
  have hsucc : (2 : Nat) ^ (p + 1) = 2 * 2 ^ p := by rw [pow_succ]; ring
  have h1 : (2 : Nat) ^ (p + 1) - 1 = 2 ^ p + (2 ^ p - 1) := by omega
  rw [h1, two_pow_add_eq_xor p (2 ^ p - 1) (by omega)]
  rw [Nat.xor_assoc (2 ^ p) (2 ^ p - 1) (2 ^ p - 1), Nat.xor_self, Nat.xor_zero,
    Nat.xor_assoc, Nat.xor_self, Nat.xor_zero]

theorem gray_two_pow_add (p k : Nat) (hk : k < 2 ^ (p + 1)) :
    gray (2 ^ (p + 1) + k) = (2 ^ (p + 1) ^^^ k) ^^^ (2 ^ p ^^^ k / 2) := by
  unfold gray
  have hsucc : (2 : Nat) ^ (p + 1) = 2 * 2 ^ p := by rw [pow_succ]; ring
  have hdiv : (2 ^ (p + 1) + k) >>> 1 = 2 ^ p + k / 2 := by
    rw [Nat.shiftRight_one]
    omega
  rw [hdiv, two_pow_add_eq_xor (p + 1) k hk, two_pow_add_eq_xor p (k / 2) (by omega)]

/-- Every Gray code in the block `i ∈ [2^(p+1), 2^(p+2))` lies in the same
interval, so its most significant set bit is bit `p + 1`. -/
theorem gray_block_range (p k : Nat) (hk : k < 2 ^ (p + 1)) :
    2 ^ (p + 1) ≤ gray (2 ^ (p + 1) + k) ∧ gray (2 ^ (p + 1) + k) < 2 ^ (p + 2) := by
  have hsucc : (2 : Nat) ^ (p + 1) = 2 * 2 ^ p := by rw [pow_succ]; ring
  have hsucc2 : (2 : Nat) ^ (p + 2) = 2 * 2 ^ (p + 1) := by rw [pow_succ]; ring
  rw [gray_two_pow_add p k hk, Nat.xor_assoc]
  have hr : k ^^^ (2 ^ p ^^^ k / 2) < 2 ^ (p + 1) := by
    apply Nat.xor_lt_two_pow hk
    apply Nat.xor_lt_two_pow (by omega) (by omega)
  rw [← two_pow_add_eq_xor _ _ hr]
  omega

theorem bit_length_gray_block (p k : Nat) (hk : k < 2 ^ (p + 1)) :
    bit_length (gray (2 ^ (p + 1) + k)) = p + 2 := by
  obtain ⟨h1, h2⟩ := gray_block_range p k hk
  exact bit_length_eq _ (p + 1) h1 h2

/-- Within a block, consecutive Gray codes differ exactly where the
corresponding low-order Gray codes differ: the high bits cancel. -/
theorem grayStep_block (p k : Nat) (hk1 : 1 ≤ k) (hk2 : k < 2 ^ (p + 1)) :
    gray (2 ^ (p + 1) + k) ^^^ gray (2 ^ (p + 1) + k - 1) = gray k ^^^ gray (k - 1) := by
  have h1 : 2 ^ (p + 1) + k - 1 = 2 ^ (p + 1) + (k - 1) := by omega
  rw [h1, gray_two_pow_add p k hk2, gray_two_pow_add p (k - 1) (by omega)]
  unfold gray
  rw [Nat.shiftRight_one, Nat.shiftRight_one]
  apply Nat.eq_of_testBit_eq
  intro j
  simp only [Nat.testBit_xor]
  generalize (2 ^ (p + 1)).testBit j = a
  generalize (2 ^ p).testBit j = b
  generalize k.testBit j = c
  generalize (k / 2).testBit j = d
  generalize (k - 1).testBit j = e
  generalize ((k - 1) / 2).testBit j = f
  revert a b c d e f
  decide

/-! ### Closed form of the `_general_version` emission -/

/-- Value of the `previous` variable after the loop has traversed `l`. -/
def prevAfter (p : Nat) (l : List Nat) : Nat :=
  l.foldl (fun q i => if i = 0 then q else gray i) p

theorem prevAfter_append (p : Nat) (l1 l2 : List Nat) :
    prevAfter p (l1 ++ l2) = prevAfter (prevAfter p l1) l2 := by
  simp [prevAfter, List.foldl_append]

theorem generalLoop_append (m p : Nat) (l1 l2 : List Nat) :
    generalLoop m p (l1 ++ l2) = generalLoop m p l1 ++ generalLoop m (prevAfter p l1) l2 := by
  induction l1 generalizing p with
  | nil => simp [generalLoop, prevAfter]
  | cons i rest ih =>
      simp only [List.cons_append, generalLoop, List.append_assoc]
      rw [show rest.append l2 = rest ++ l2 from rfl, ih]
      rfl

theorem prevAfter_range_map (a : Nat) (ha : 1 ≤ a) (K : Nat) :
    prevAfter (gray (a - 1)) ((List.range K).map (a + ·)) = gray (a + K - 1) := by
  induction K with
  | zero => simp [prevAfter]
  | succ K ih =>
      rw [List.range_succ, List.map_append, prevAfter_append, ih]
      show (if a + K = 0 then gray (a + K - 1) else gray (a + K)) = gray (a + (K + 1) - 1)
      rw [if_neg (by omega)]
      congr 1

theorem generalLoop_range_map (m a : Nat) (ha : 1 ≤ a) (K : Nat) :
    generalLoop m (gray (a - 1)) ((List.range K).map (a + ·)) =
      (List.range K).flatMap fun k => stepOps m (gray (a + k - 1)) (a + k) := by
  induction K with
  | zero => simp [generalLoop]
  | succ K ih =>
      rw [List.range_succ, List.map_append, generalLoop_append, ih,
        prevAfter_range_map a ha, List.flatMap_append]
      simp [generalLoop]

/-- The emission of `_general_version`, reindexed so that entry `k` of the
list is the loop iteration `i = k + 1` (whose `previous` value is `gray k`). -/
def emitSteps (n m : Nat) : List Op :=
  (List.range (2 ^ n - 1)).flatMap fun k => stepOps m (gray k) (k + 1)

theorem emit_general_eq (n m : Nat) : emit_general n m = emitSteps n m := by
  unfold emit_general emitSteps
  have h2 : List.range (2 ^ n) = List.range 1 ++ (List.range (2 ^ n - 1)).map (1 + ·) := by
    rw [← List.range_add]
    congr 1
    have := Nat.two_pow_pos n
    omega
  rw [h2, generalLoop_append]
  have h3 : generalLoop m 0 (List.range 1) = [] := rfl
  have h4 : prevAfter 0 (List.range 1) = gray (1 - 1) := rfl
  rw [h3, h4, generalLoop_range_map m 1 le_rfl, List.nil_append]
  simp only [Nat.add_comm 1, Nat.add_sub_cancel]

/-- The operations emitted by the loop iterations `i ∈ [2^n, 2^(n+1) - 1]`
(the "block" in which the controlled-root control index is `n`). -/
def blockOps (n m : Nat) : List Op :=
  (List.range (2 ^ n)).flatMap fun k => stepOps m (gray (2 ^ n + k - 1)) (2 ^ n + k)

theorem emitSteps_succ (n m : Nat) :
    emitSteps (n + 1) m = emitSteps n m ++ blockOps n m := by
  unfold emitSteps blockOps
  have hpos := Nat.two_pow_pos n
  have h1 : 2 ^ (n + 1) - 1 = (2 ^ n - 1) + 2 ^ n := by
    have h : (2 : Nat) ^ (n + 1) = 2 * 2 ^ n := by rw [pow_succ]; ring
    omega
  rw [h1, List.range_add, List.flatMap_append, List.flatMap_map]
  congr 1
  have hfun : (fun a => stepOps m (gray (2 ^ n - 1 + a)) (2 ^ n - 1 + a + 1)) =
      fun k => stepOps m (gray (2 ^ n + k - 1)) (2 ^ n + k) := by
    funext k
    have h2 : 2 ^ n - 1 + k = 2 ^ n + k - 1 := by omega
    have h3 : 2 ^ n - 1 + k + 1 = 2 ^ n + k := by omega
    rw [h3, h2]
  rw [hfun]

/-! ### Evolution of the control bits -/

theorem runOps_cons (op : Op) (rest : List Op) (s : SimState) :
    runOps (op :: rest) s = runOps rest (applyOp s op) := rfl

theorem runOps_ctrl (ops : List Op) : ∀ s : SimState, (runOps ops s).ctrl = ctrlFold ops s.ctrl := by
  induction ops with
  | nil => intro s; rfl
  | cons op rest ih =>
      intro s
      rw [runOps_cons, ih]
      cases op with
      | toggle src dst => rfl
      | applyGate c t g =>
          have h : (applyOp s (Op.applyGate c t g)).ctrl = s.ctrl := by
            simp only [applyOp]
            split <;> rfl
          rw [show ctrlFold (Op.applyGate c t g :: rest) s.ctrl = ctrlFold rest s.ctrl from rfl, h]

theorem ctrlFold_append (l1 l2 : List Op) :
    ∀ c, ctrlFold (l1 ++ l2) c = ctrlFold l2 (ctrlFold l1 c) := by
  induction l1 with
  | nil => intro c; rfl
  | cons op rest ih =>
      intro c
      cases op <;> exact ih _

theorem ctrlFold_gates (a : Nat) (g : GateExpr) :
    ∀ (ts : List Nat) (c : Nat → Bool), ctrlFold (ts.map fun t => Op.applyGate a t g) c = c := by
  intro ts
  induction ts with
  | nil => intro c; rfl
  | cons t rest ih => intro c; exact ih c

theorem ctrlFold_cons_toggle (src dst : Nat) (rest : List Op) (c : Nat → Bool) :
    ctrlFold (Op.toggle src dst :: rest) c =
      ctrlFold rest (Function.update c dst (Bool.xor (c src) (c dst))) := rfl

/-! ### Shape of one loop iteration inside a block -/

/-- Most significant bit in which the Gray codes of `k` and `k - 1` differ —
the value of `diff` at a loop iteration whose low-order part is `k ≥ 1`. -/
def ddFun (k : Nat) : Nat := bit_length (gray k ^^^ gray (k - 1)) - 1

theorem gray_lt_two_pow (N k : Nat) (h : k < 2 ^ N) : gray k < 2 ^ N := by
  unfold gray
  refine Nat.xor_lt_two_pow h (lt_of_le_of_lt ?_ h)
  rw [Nat.shiftRight_one]
  exact Nat.div_le_self k 2

theorem ddFun_le (p k : Nat) (hk1 : 1 ≤ k) (hk2 : k < 2 ^ (p + 1)) : ddFun k ≤ p := by
  have h1 : gray k ^^^ gray (k - 1) < 2 ^ (p + 1) :=
    Nat.xor_lt_two_pow (gray_lt_two_pow _ _ hk2) (gray_lt_two_pow _ _ (by omega))
  have h2 := bit_length_lt _ _ h1
  unfold ddFun
  omega

theorem ddFun_two_pow (p : Nat) : ddFun (2 ^ (p + 1)) = p + 1 := by
  have hpos := Nat.two_pow_pos (p + 1)
  have hlt : (2 : Nat) ^ (p + 1) < 2 ^ (p + 2) := by
    have h : (2 : Nat) ^ (p + 2) = 2 ^ (p + 1) * 2 := by rw [pow_succ]
    omega
  unfold ddFun
  rw [grayStep_two_pow p, bit_length_eq _ (p + 1) le_rfl hlt]
  omega

theorem ddFun_block (p k : Nat) (hk1 : 1 ≤ k) (hk2 : k < 2 ^ (p + 1)) :
    ddFun (2 ^ (p + 1) + k) = ddFun k := by
  have h1 : 2 ^ (p + 1) + k - 1 = 2 ^ (p + 1) + k - 1 := rfl
  unfold ddFun
  rw [grayStep_block p k hk1 hk2]

/-- The first iteration of the block `i ∈ [2^(p+1), 2^(p+2))`: the toggle is
sourced from the immediately preceding control index (`idx == diff` branch). -/
theorem stepOps_block_head (p m : Nat) :
    stepOps m (gray (2 ^ (p + 1) - 1)) (2 ^ (p + 1)) =
      Op.toggle p (p + 1)
        :: ((List.range m).map fun t =>
          Op.applyGate (p + 1) t
            (get_V_instruction (bit_count (gray (2 ^ (p + 1))) % 2 == 0))) := by
  have hpos : (0 : Nat) < 2 ^ (p + 1) := Nat.two_pow_pos _
  have h2le : (2 : Nat) ≤ 2 ^ (p + 1) := by
    have h : (2 : Nat) ^ 1 ≤ 2 ^ (p + 1) := Nat.pow_le_pow_right (by norm_num) (by omega)
    simpa using h
  have hbl : bit_length (gray (2 ^ (p + 1))) = p + 2 := by
    have h := bit_length_gray_block p 0 hpos
    simpa using h
  have hD : gray (2 ^ (p + 1)) ^^^ gray (2 ^ (p + 1) - 1) = 2 ^ (p + 1) := grayStep_two_pow p
  have hblD : bit_length (2 ^ (p + 1)) = p + 2 := by
    have hlt : (2 : Nat) ^ (p + 1) < 2 ^ (p + 2) := by
      have h : (2 : Nat) ^ (p + 2) = 2 ^ (p + 1) * 2 := by rw [pow_succ]
      omega
    exact bit_length_eq _ (p + 1) le_rfl hlt
  unfold stepOps
  rw [if_neg (show ¬ (2 ^ (p + 1) = 0) by omega)]
  simp only [hD, hbl, hblD]
  rw [if_pos ⟨trivial, show (2 : Nat) ^ (p + 1) ≠ 1 by omega⟩]
  rfl

/-- A later iteration of the block (`k ≥ 1`): the toggle sources from `diff`,
which stays strictly below the block's control index `p + 1`. -/
theorem stepOps_block_tail (p m k : Nat) (hk1 : 1 ≤ k) (hk2 : k < 2 ^ (p + 1)) :
    stepOps m (gray (2 ^ (p + 1) + k - 1)) (2 ^ (p + 1) + k) =
      Op.toggle (ddFun k) (p + 1)
        :: ((List.range m).map fun t =>
          Op.applyGate (p + 1) t
            (get_V_instruction (bit_count (gray (2 ^ (p + 1) + k)) % 2 == 0))) := by
  have hpos : (0 : Nat) < 2 ^ (p + 1) := Nat.two_pow_pos _
  have h2le : (2 : Nat) ≤ 2 ^ (p + 1) := by
    have h : (2 : Nat) ^ 1 ≤ 2 ^ (p + 1) := Nat.pow_le_pow_right (by norm_num) (by omega)
    simpa using h
  have hD := grayStep_block p k hk1 hk2
  have hbl : bit_length (gray (2 ^ (p + 1) + k)) = p + 2 := bit_length_gray_block p k hk2
  have hddle : bit_length (gray k ^^^ gray (k - 1)) - 1 ≤ p := ddFun_le p k hk1 hk2
  unfold stepOps
  rw [if_neg (show ¬ (2 ^ (p + 1) + k = 0) by omega)]
  simp only [hD, hbl]
  have hc1 : ¬ (p + 2 - 1 = bit_length (gray k ^^^ gray (k - 1)) - 1 ∧ 2 ^ (p + 1) + k ≠ 1) := by
    intro hc
    have h := hc.1
    omega
  rw [if_neg hc1, if_pos (show 2 ^ (p + 1) + k ≠ 1 by omega)]
  rfl

/-! ### The XOR of the toggle sources of a block telescopes away -/

/-- XOR of `x (ddFun k)` for `k ∈ [1, J]`. -/
def ddXor (x : Nat → Bool) (J : Nat) : Bool :=
  ((List.range J).map fun j => x (ddFun (j + 1))).foldr Bool.xor false

theorem foldr_xor_append (l1 l2 : List Bool) :
    (l1 ++ l2).foldr Bool.xor false =
      Bool.xor (l1.foldr Bool.xor false) (l2.foldr Bool.xor false) := by
  induction l1 with
  | nil => simp
  | cons b rest ih => simp [ih, Bool.xor_assoc]

theorem ddXor_succ (x : Nat → Bool) (J : Nat) :
    ddXor x (J + 1) = Bool.xor (ddXor x J) (x (ddFun (J + 1))) := by
  unfold ddXor
  rw [List.range_succ, List.map_append, foldr_xor_append]
  simp

theorem ddXor_two_pow (x : Nat → Bool) : ∀ n, 1 ≤ n → ddXor x (2 ^ n - 1) = x (n - 1) := by
  intro n
  induction n with
  | zero => intro h; omega
  | succ n ih =>
    intro _
    by_cases hn : n = 0
    · subst hn
      show ddXor x 1 = x 0
      rw [show ddXor x 1 = Bool.xor (x (ddFun 1)) false from rfl]
      rw [show ddFun 1 = 0 from rfl, Bool.xor_false]
    · have hn1 : 1 ≤ n := by omega
      obtain ⟨p, rfl⟩ : ∃ p, n = p + 1 := ⟨n - 1, by omega⟩
      have hpos := Nat.two_pow_pos (p + 1)
      have hsucc : (2 : Nat) ^ (p + 1 + 1) = 2 * 2 ^ (p + 1) := by rw [pow_succ]; ring
      have h1 : 2 ^ (p + 1 + 1) - 1 = (2 ^ (p + 1) - 1) + 2 ^ (p + 1) := by omega
      unfold ddXor
      rw [h1, List.range_add, List.map_append, foldr_xor_append, List.map_map]
      have e1 : ((List.range (2 ^ (p + 1) - 1)).map fun j => x (ddFun (j + 1))).foldr
          Bool.xor false = ddXor x (2 ^ (p + 1) - 1) := rfl
      rw [e1, ih hn1]
      have hfun : ((fun j => x (ddFun (j + 1))) ∘ (2 ^ (p + 1) - 1 + ·)) =
          fun j => x (ddFun (2 ^ (p + 1) + j)) := by
        funext j
        simp only [Function.comp]
        congr 2
        omega
      rw [hfun]
      have h2 : (2 : Nat) ^ (p + 1) = (2 ^ (p + 1) - 1) + 1 := by omega
      rw [h2, List.range_succ_eq_map, List.map_cons, List.map_map]
      rw [show (2 : Nat) ^ (p + 1) - 1 + 1 + 0 = 2 ^ (p + 1) by omega]
      have hhead : x (ddFun (2 ^ (p + 1))) = x (p + 1) := by rw [ddFun_two_pow]
      have htail : (List.range (2 ^ (p + 1) - 1)).map
            ((fun j => x (ddFun (2 ^ (p + 1) + j))) ∘ Nat.succ) =
          (List.range (2 ^ (p + 1) - 1)).map fun j => x (ddFun (j + 1)) := by
        apply List.map_congr_left
        intro j hj
        have hjlt : j < 2 ^ (p + 1) - 1 := List.mem_range.mp hj
        simp only [Function.comp]
        congr 1
        rw [show (2 : Nat) ^ (p + 1) + Nat.succ j = 2 ^ (p + 1) + (j + 1) by omega]
        exact ddFun_block p (j + 1) (by omega) (by omega)
      rw [htail, hhead]
      have e2 : ((List.range (2 ^ (p + 1) - 1)).map fun j => x (ddFun (j + 1))).foldr
          Bool.xor false = ddXor x (2 ^ (p + 1) - 1) := rfl
      rw [List.foldr_cons, e2, ih hn1]
      rw [show p + 1 + 1 - 1 = p + 1 by omega]
      generalize x (p + 1) = a
      generalize x (p + 1 - 1) = b
      show Bool.xor b (Bool.xor a b) = a
      revert a b
      decide

/-! ### The net effect of a block on the control bits is the identity -/

/-- The operations of the first `K` iterations of the block
`i ∈ [2^(p+1), 2^(p+2))`. -/
def blockFirst (p m K : Nat) : List Op :=
  (List.range K).flatMap fun k => stepOps m (gray (2 ^ (p + 1) + k - 1)) (2 ^ (p + 1) + k)

theorem ctrlFold_blockFirst (p m : Nat) (x : Nat → Bool) :
    ∀ K, 1 ≤ K → K ≤ 2 ^ (p + 1) →
      ctrlFold (blockFirst p m K) x =
        Function.update x (p + 1)
          (Bool.xor (x (p + 1)) (Bool.xor (x p) (ddXor x (K - 1)))) := by
  intro K
  induction K with
  | zero => intro h; omega
  | succ K ih =>
    intro _ h2
    by_cases hK : K = 0
    · subst hK
      have e1 : blockFirst p m 1 =
          stepOps m (gray (2 ^ (p + 1) + 0 - 1)) (2 ^ (p + 1) + 0) ++ [] := rfl
      rw [e1, List.append_nil,
        show (2 : Nat) ^ (p + 1) + 0 - 1 = 2 ^ (p + 1) - 1 by omega,
        show (2 : Nat) ^ (p + 1) + 0 = 2 ^ (p + 1) by omega,
        stepOps_block_head p m, ctrlFold_cons_toggle, ctrlFold_gates]
      refine congrArg (Function.update x (p + 1)) ?_
      rw [show ddXor x (1 - 1) = false from rfl, Bool.xor_false, Bool.xor_comm]
    · have hK1 : 1 ≤ K := by omega
      have hKlt : K < 2 ^ (p + 1) := by omega
      have hsplit : blockFirst p m (K + 1) = blockFirst p m K ++
          stepOps m (gray (2 ^ (p + 1) + K - 1)) (2 ^ (p + 1) + K) := by
        unfold blockFirst
        rw [List.range_succ, List.flatMap_append]
        simp
      rw [hsplit, ctrlFold_append, ih hK1 (by omega),
        stepOps_block_tail p m K hK1 hKlt, ctrlFold_cons_toggle, ctrlFold_gates]
      have hne : ddFun K ≠ p + 1 := by
        have h := ddFun_le p K hK1 hKlt
        omega
      rw [Function.update_noteq hne, Function.update_same, Function.update_idem]
      have hXs : ddXor x K = Bool.xor (ddXor x (K - 1)) (x (ddFun K)) := by
        have h := ddXor_succ x (K - 1)
        rw [show K - 1 + 1 = K by omega] at h
        exact h
      refine congrArg (Function.update x (p + 1)) ?_
      rw [show K + 1 - 1 = K by omega, hXs]
      generalize x (ddFun K) = a
      generalize x (p + 1) = b
      generalize x p = c
      generalize ddXor x (K - 1) = d
      revert a b c d
      decide

theorem ctrlFold_blockOps (p m : Nat) (x : Nat → Bool) :
    ctrlFold (blockOps (p + 1) m) x = x := by
  have hpos := Nat.two_pow_pos (p + 1)
  have e : blockOps (p + 1) m = blockFirst p m (2 ^ (p + 1)) := rfl
  rw [e, ctrlFold_blockFirst p m x (2 ^ (p + 1)) (by omega) le_rfl]
  have h1 : Bool.xor (x p) (ddXor x (2 ^ (p + 1) - 1)) = false := by
    rw [ddXor_two_pow x (p + 1) (by omega)]
    exact Bool.xor_self (x p)
  rw [h1, Bool.xor_false]
  exact Function.update_eq_self _ _

/-- The loop body at `i = 1` emits no toggle, only the controlled roots. -/
theorem stepOps_one (m p : Nat) :
    stepOps m p 1 = (List.range m).map fun t => Op.applyGate 0 t (get_V_instruction false) := by
  simp only [stepOps]
  norm_num
  exact fun a _ => ⟨by decide, by decide⟩

/-- Running `_general_version` on a computational-basis control state returns
every control bit to its initial value: each Gray-code block's toggles cancel. -/
theorem ctrlFold_emit_general (n m : Nat) : ∀ x, ctrlFold (emit_general n m) x = x := by
  intro x
  rw [emit_general_eq]
  induction n generalizing x with
  | zero => rfl
  | succ n ih =>
    by_cases hn : n = 0
    · subst hn
      have e : emitSteps 1 m = stepOps m (gray 0) (0 + 1) ++ [] := rfl
      rw [e, List.append_nil, show (0 : Nat) + 1 = 1 from rfl, stepOps_one, ctrlFold_gates]
    · obtain ⟨p, rfl⟩ : ∃ p, n = p + 1 := ⟨n - 1, by omega⟩
      rw [emitSteps_succ, ctrlFold_append, ih x, ctrlFold_blockOps]

/-! ### Counting the emitted operations -/

theorem countP_flatMap (p : Op → Bool) (f : Nat → List Op) :
    ∀ l : List Nat, (l.flatMap f).countP p = (l.map fun a => (f a).countP p).sum := by
  intro l
  induction l with
  | nil => rfl
  | cons a rest ih => simp [List.countP_append, ih]

theorem flatMap_congr_left (l : List Nat) (f g : Nat → List Op)
    (h : ∀ a ∈ l, f a = g a) : l.flatMap f = l.flatMap g := by
  induction l with
  | nil => rfl
  | cons a rest ih =>
      simp only [List.flatMap_cons]
      rw [h a (List.mem_cons_self a rest), ih fun b hb => h b (List.mem_cons_of_mem a hb)]

theorem filter_flatMap (p : Op → Bool) (f : Nat → List Op) :
    ∀ l : List Nat, (l.flatMap f).filter p = l.flatMap fun a => (f a).filter p := by
  intro l
  induction l with
  | nil => rfl
  | cons a rest ih => simp [List.filter_append, ih]

theorem countP_toggle_gates (a : Nat) (g : GateExpr) (m : Nat) :
    ((List.range m).map fun t => Op.applyGate a t g).countP isToggle = 0 := by
  apply List.countP_eq_zero.mpr
  intro op hop
  obtain ⟨t, _, rfl⟩ := List.mem_map.mp hop
  simp [isToggle]

theorem countP_apply_gates (a : Nat) (g : GateExpr) (m : Nat) :
    ((List.range m).map fun t => Op.applyGate a t g).countP isApplyGate = m := by
  rw [List.countP_map]
  have h : (isApplyGate ∘ fun t => Op.applyGate a t g) = fun _ => true := rfl
  rw [h, List.countP_true, List.length_range]

theorem filter_apply_gates (a : Nat) (g : GateExpr) (m : Nat) :
    ((List.range m).map fun t => Op.applyGate a t g).filter isApplyGate =
      (List.range m).map fun t => Op.applyGate a t g := by
  apply List.filter_eq_self.mpr
  intro op hop
  obtain ⟨t, _, rfl⟩ := List.mem_map.mp hop
  rfl

/-- For `i ∉ {0, 1}`, the loop body emits exactly one toggle followed by the
controlled roots, whatever branch chooses the toggle's endpoints. -/
theorem stepOps_toggle_shape (m p i : Nat) (h0 : i ≠ 0) (h1 : i ≠ 1) :
    ∃ s d, stepOps m p i =
      Op.toggle s d :: ((List.range m).map fun t =>
        Op.applyGate (bit_length (gray i) - 1) t
          (get_V_instruction (bit_count (gray i) % 2 == 0))) := by
  simp only [stepOps]
  rw [if_neg h0]
  by_cases hc : bit_length (gray i) - 1 = bit_length (gray i ^^^ p) - 1
  · rw [if_pos ⟨hc, h1⟩]
    exact ⟨_, _, rfl⟩
  · rw [if_neg (fun hand => hc hand.1), if_pos h1]
    exact ⟨_, _, rfl⟩

theorem countP_stepOps_toggle (m k : Nat) :
    (stepOps m (gray k) (k + 1)).countP isToggle = if k = 0 then 0 else 1 := by
  by_cases hk : k = 0
  · subst hk
    rw [show (0 : Nat) + 1 = 1 from rfl, stepOps_one, countP_toggle_gates]
    rfl
  · obtain ⟨s, d, hshape⟩ := stepOps_toggle_shape m (gray k) (k + 1) (by omega) (by omega)
    rw [hshape, List.countP_cons, countP_toggle_gates, if_neg hk]
    rfl

theorem filter_stepOps_apply (m k : Nat) :
    (stepOps m (gray k) (k + 1)).filter isApplyGate =
      (List.range m).map fun t =>
        Op.applyGate (bit_length (gray (k + 1)) - 1) t
          (get_V_instruction (bit_count (gray (k + 1)) % 2 == 0)) := by
  by_cases hk : k = 0
  · subst hk
    rw [show (0 : Nat) + 1 = 1 from rfl, stepOps_one, filter_apply_gates]
    rfl
  · obtain ⟨s, d, hshape⟩ := stepOps_toggle_shape m (gray k) (k + 1) (by omega) (by omega)
    rw [hshape, List.filter_cons]
    simp only [isToggle, isApplyGate]
    rw [if_neg (by simp), filter_apply_gates]

theorem countP_comp_toggle (a : Nat) (g : GateExpr) (m : Nat) :
    List.countP (isToggle ∘ fun t => Op.applyGate a t g) (List.range m) = 0 := by
  apply List.countP_eq_zero.mpr
  intro b _
  simp [Function.comp, isToggle]

theorem countP_comp_apply (a : Nat) (g : GateExpr) (m : Nat) :
    List.countP (isApplyGate ∘ fun t => Op.applyGate a t g) (List.range m) = m := by
  have h : (isApplyGate ∘ fun t => Op.applyGate a t g) = fun _ => true := rfl
  rw [h, List.countP_true, List.length_range]

theorem sum_map_ite (K : Nat) :
    ((List.range K).map fun k => if k = 0 then 0 else 1).sum = K - 1 := by
  induction K with
  | zero => rfl
  | succ K ih =>
      rw [List.range_succ, List.map_append, List.sum_append, ih]
      by_cases hK : K = 0
      · subst hK; rfl
      · simp [hK]
        omega

theorem sum_map_const (K c : Nat) : ((List.range K).map fun _ => c).sum = K * c := by
  induction K with
  | zero => simp
  | succ K ih =>
      rw [List.range_succ, List.map_append, List.sum_append, ih]
      simp [Nat.succ_mul]

/-! ### The `mcx` ancilla-mode dispatch of `ExtendedQuantumCircuit` -/

/-- The collaborator gate objects constructed by `mcx`'s
`available_implementations` table (`MCXGrayCode`, `MCXRecursive`, `MCXVChain`
with clean or dirty ancillas), keyed by control count. -/
inductive MCXGate where
  | grayCode : Nat → MCXGate
  | recursion : Nat → MCXGate
  | vchain : Nat → Bool → MCXGate
deriving DecidableEq

/-- Modelled from the spec: the ancilla requirement of each collaborator gate,
as documented in the `mcx` docstring — `noancilla` requires 0 ancilla qubits,
`recursion` requires 1 ancilla qubit if more than 4 controls are used
(otherwise 0), and the v-chain variants require 2 less ancillas than the
number of control qubits. -/
def num_ancilla_qubits : MCXGate → Nat
  | .grayCode _ => 0
  | .recursion n => if 4 < n then 1 else 0
  | .vchain n _ => n - 2

/-- The `available_implementations` dictionary of `mcx`, in source order,
including the outdated previous names. -/
def available_implementations (num_ctrl_qubits : Nat) : List (String × MCXGate) :=
  [("noancilla", MCXGate.grayCode num_ctrl_qubits),
   ("recursion", MCXGate.recursion num_ctrl_qubits),
   ("v-chain", MCXGate.vchain num_ctrl_qubits false),
   ("v-chain-dirty", MCXGate.vchain num_ctrl_qubits true),
   ("advanced", MCXGate.recursion num_ctrl_qubits),
   ("basic", MCXGate.vchain num_ctrl_qubits false),
   ("basic-dirty-ancilla", MCXGate.vchain num_ctrl_qubits true)]

/-- The enumerated valid mode names (the keys of
`available_implementations`, in dictionary order — the list `all_modes`
reported by the unsupported-mode error message). -/
def valid_modes : List String :=
  ["noancilla", "recursion", "v-chain", "v-chain-dirty", "advanced", "basic",
   "basic-dirty-ancilla"]

/-- The failures `mcx` can raise: the `ValueError` for an unsupported mode
(carrying the mode and the list of valid names its message reports), the
`AttributeError` when ancillas are needed but none are passed, and the
`ValueError` when too few ancillas are passed (required vs. given). -/
inductive MCXError where
  | unsupportedMode : String → List String → MCXError
  | noAncillasProvided : Nat → MCXError
  | tooFewAncillas : Nat → Nat → MCXError
deriving DecidableEq

/-- `ExtendedQuantumCircuit.mcx`: look the mode up in
`available_implementations` (raising `ValueError` listing `all_modes` if the
mode is unknown); if the selected gate needs ancillas, raise `AttributeError`
when `ancilla_qubits is None` and `ValueError` when fewer than required are
given, and truncate an oversupplied list to the required length; finally
append the gate to `control_qubits[:] + [target_qubit] + ancilla_qubits[:]`. -/
def mcx (control_qubits : List Nat) (target_qubit : Nat)
    (ancilla_qubits : Option (List Nat)) (mode : String) :
    Except MCXError (MCXGate × List Nat) :=
  let num_ctrl_qubits := control_qubits.length
  let avail := available_implementations num_ctrl_qubits
  match avail.find? (fun q => q.1 == mode) with
  | none => Except.error (MCXError.unsupportedMode mode (avail.map Prod.fst))
  | some q =>
      if 0 < num_ancilla_qubits q.2 then
        match ancilla_qubits with
        | none => Except.error (MCXError.noAncillasProvided (num_ancilla_qubits q.2))
        | some anc =>
            if anc.length < num_ancilla_qubits q.2 then
              Except.error (MCXError.tooFewAncillas (num_ancilla_qubits q.2) anc.length)
            else
              Except.ok (q.2, control_qubits ++ [target_qubit]
                ++ anc.take (num_ancilla_qubits q.2))
      else Except.ok (q.2, control_qubits ++ [target_qubit])

/-- Does a result carry the unsupported-mode `ValueError`? -/
def isUnsupportedModeErr {α : Type} : Except MCXError α → Bool
  | .error (.unsupportedMode _ _) => true
  | _ => false

theorem find_mode_none (n : Nat) (mode : String) (h : mode ∉ valid_modes) :
    (available_implementations n).find? (fun q => q.1 == mode) = none := by
  apply List.find?_eq_none.mpr
  intro q hq
  fin_cases hq <;> simp only [beq_iff_eq] <;> rintro rfl <;> exact h (by simp [valid_modes])

theorem mcx_eq_not_found (ctrls : List Nat) (tgt : Nat) (anc : Option (List Nat))
    (mode : String)
    (h : (available_implementations ctrls.length).find? (fun q => q.1 == mode) = none) :
    mcx ctrls tgt anc mode = Except.error (MCXError.unsupportedMode mode valid_modes) := by
  simp only [mcx]
  rw [h]
  rfl

theorem mcx_found_no_anc (ctrls : List Nat) (tgt : Nat) (mode : String)
    (q : String × MCXGate)
    (hq : (available_implementations ctrls.length).find? (fun r => r.1 == mode) = some q)
    (h0 : 0 < num_ancilla_qubits q.2) :
    mcx ctrls tgt none mode =
      Except.error (MCXError.noAncillasProvided (num_ancilla_qubits q.2)) := by
  simp only [mcx]
  rw [hq]
  show (if 0 < num_ancilla_qubits q.2 then
      Except.error (MCXError.noAncillasProvided (num_ancilla_qubits q.2))
    else Except.ok (q.2, ctrls ++ [tgt])) = _
  rw [if_pos h0]

theorem mcx_found_some_anc (ctrls : List Nat) (tgt : Nat) (anc : List Nat) (mode : String)
    (q : String × MCXGate)
    (hq : (available_implementations ctrls.length).find? (fun r => r.1 == mode) = some q)
    (h0 : 0 < num_ancilla_qubits q.2) :
    mcx ctrls tgt (some anc) mode =
      (if anc.length < num_ancilla_qubits q.2 then
        Except.error (MCXError.tooFewAncillas (num_ancilla_qubits q.2) anc.length)
      else Except.ok (q.2, ctrls ++ [tgt] ++ anc.take (num_ancilla_qubits q.2))) := by
  simp only [mcx]
  rw [hq]
  show (if 0 < num_ancilla_qubits q.2 then
      (if anc.length < num_ancilla_qubits q.2 then
        Except.error (MCXError.tooFewAncillas (num_ancilla_qubits q.2) anc.length)
      else Except.ok (q.2, ctrls ++ [tgt] ++ anc.take (num_ancilla_qubits q.2)))
    else Except.ok (q.2, ctrls ++ [tgt])) = _
  rw [if_pos h0]

theorem mcx_found_no_need (ctrls : List Nat) (tgt : Nat) (anc : Option (List Nat))
    (mode : String) (q : String × MCXGate)
    (hq : (available_implementations ctrls.length).find? (fun r => r.1 == mode) = some q)
    (h0 : ¬ 0 < num_ancilla_qubits q.2) :
    mcx ctrls tgt anc mode = Except.ok (q.2, ctrls ++ [tgt]) := by
  simp only [mcx]
  rw [hq]
  show (if 0 < num_ancilla_qubits q.2 then _ else Except.ok (q.2, ctrls ++ [tgt])) =
    Except.ok (q.2, ctrls ++ [tgt])
  rw [if_neg h0]

theorem not_unsupported_of_mem (ctrls : List Nat) (tgt : Nat) (anc : Option (List Nat))
    (mode : String) (h : mode ∈ valid_modes) :
    isUnsupportedModeErr (mcx ctrls tgt anc mode) = false := by
  have hfind : ∃ q, (available_implementations ctrls.length).find?
      (fun r => r.1 == mode) = some q := by
    fin_cases h <;> exact ⟨_, rfl⟩
  obtain ⟨q, hq⟩ := hfind
  by_cases h0 : 0 < num_ancilla_qubits q.2
  · cases anc with
    | none => rw [mcx_found_no_anc ctrls tgt mode q hq h0]; rfl
    | some l =>
        rw [mcx_found_some_anc ctrls tgt l mode q hq h0]
        by_cases hlen : l.length < num_ancilla_qubits q.2
        · rw [if_pos hlen]; rfl
        · rw [if_neg hlen]; rfl
  · rw [mcx_found_no_need ctrls tgt anc mode q hq h0]; rfl

/-! ### The claims -/

/-- Modelled from the spec: the controlled-root list that §4.3 prescribes —
for each nonzero Gray-code step `i = k + 1` and each target `t`, one
controlled-root application whose control index is the most significant set
bit of the code, using V when the popcount of the code is odd and V† when it
is even. -/
def rootOpsSpec (n m : Nat) : List Op :=
  (List.range (2 ^ n - 1)).flatMap fun k =>
    (List.range m).map fun t =>
      Op.applyGate (bit_length (gray (k + 1)) - 1) t
        (get_V_instruction (bit_count (gray (k + 1)) % 2 == 0))

/-- C1: the spec claims the emitted sequence is bit-exact equivalent to
"apply U to each target iff all n controls are 1" for every n ≥ 2.  The code
hardcodes V = U^(1/4), so on the all-ones control basis state the net applied
power of U is 2^(n-1)/4: 1/2 at n = 2 and 2 at n = 4 instead of the reference
1 (it is 1 only at n = 3).  In particular for U = X with two controls the
target receives √X, not X, so the repository's own test
`Test_2ctrl_version.test_all_ctrl_are_1` cannot pass. -/
theorem c1_code_divergence :
    netPower 2 1 allOnes 0 = 1 / 2 ∧ netPower 4 1 allOnes 0 = 2
      ∧ netPower 3 1 allOnes 0 = 1
      ∧ refPower 2 allOnes = 1 ∧ refPower 4 allOnes = 1
      ∧ ((1 : ℚ) / 2 ≠ 1) ∧ ((2 : ℚ) ≠ 1) := by
  refine ⟨?_, ?_, ?_, by simp [refPower, allOnes], by simp [refPower, allOnes],
    by norm_num, by norm_num⟩
  · have hb : build 2 1 = [Op.applyGate 1 0 (get_V_instruction false), Op.toggle 0 1,
        Op.applyGate 1 0 (get_V_instruction true), Op.toggle 0 1,
        Op.applyGate 0 0 (get_V_instruction false)] := by decide
    unfold netPower
    rw [hb]
    norm_num [runOps, applyOp, initState, allOnes, uPower, get_V_instruction, Function.update]
  · have hb : build 4 1 =
        [Op.applyGate 0 0 (get_V_instruction false),
         Op.toggle 0 1,
         Op.applyGate 1 0 (get_V_instruction true),
         Op.toggle 0 1,
         Op.applyGate 1 0 (get_V_instruction false),
         Op.toggle 1 2,
         Op.applyGate 2 0 (get_V_instruction true),
         Op.toggle 0 2,
         Op.applyGate 2 0 (get_V_instruction false),
         Op.toggle 1 2,
         Op.applyGate 2 0 (get_V_instruction true),
         Op.toggle 0 2,
         Op.applyGate 2 0 (get_V_instruction false),
         Op.toggle 2 3,
         Op.applyGate 3 0 (get_V_instruction true),
         Op.toggle 0 3,
         Op.applyGate 3 0 (get_V_instruction false),
         Op.toggle 1 3,
         Op.applyGate 3 0 (get_V_instruction true),
         Op.toggle 0 3,
         Op.applyGate 3 0 (get_V_instruction false),
         Op.toggle 2 3,
         Op.applyGate 3 0 (get_V_instruction true),
         Op.toggle 0 3,
         Op.applyGate 3 0 (get_V_instruction false),
         Op.toggle 1 3,
         Op.applyGate 3 0 (get_V_instruction true),
         Op.toggle 0 3,
         Op.applyGate 3 0 (get_V_instruction false)] := by decide
    unfold netPower
    rw [hb]
    norm_num [runOps, applyOp, initState, allOnes, uPower, get_V_instruction, Function.update]
  · have hb : build 3 1 =
        [Op.applyGate 0 0 (get_V_instruction false),
         Op.toggle 0 1,
         Op.applyGate 1 0 (get_V_instruction true),
         Op.toggle 0 1,
         Op.applyGate 1 0 (get_V_instruction false),
         Op.toggle 1 2,
         Op.applyGate 2 0 (get_V_instruction true),
         Op.toggle 0 2,
         Op.applyGate 2 0 (get_V_instruction false),
         Op.toggle 1 2,
         Op.applyGate 2 0 (get_V_instruction true),
         Op.toggle 0 2,
         Op.applyGate 2 0 (get_V_instruction false)] := by decide
    unfold netPower
    rw [hb]
    norm_num [runOps, applyOp, initState, allOnes, uPower, get_V_instruction, Function.update]

/-- C2: the spec claims `len(controls) == 1` is handled explicitly by one
singly-controlled-U application per target, invoking neither the root
operator nor the Gray-code path.  The code instead dispatches n = 1 to
`_general_version` (the Gray-code path), which emits one controlled root
`V = U^(1/4)` per target: the net applied power of U on the active control
state is 1/4, not the reference 1. -/
theorem c2_code_divergence :
    build 1 1 = emit_general 1 1
      ∧ build 1 1 = [Op.applyGate 0 0 (get_V_instruction false)]
      ∧ netPower 1 1 allOnes 0 = 1 / 4
      ∧ refPower 1 allOnes = 1 ∧ ((1 : ℚ) / 4 ≠ 1) := by
  refine ⟨by decide, by decide, ?_, by simp [refPower, allOnes], by norm_num⟩
  have hb : build 1 1 = [Op.applyGate 0 0 (get_V_instruction false)] := by decide
  unfold netPower
  rw [hb]
  norm_num [runOps, applyOp, initState, allOnes, uPower, get_V_instruction, Function.update]

/-- C3 (counterexample): the 2-control synthesizer's root operators are built
by `_get_V_instruction` — Context B, the fourth root of U taken first and the
control added afterwards (`control1 (pow4 U)`) — which is a different
construction from Context A (`_get_V_operator`, `pow4 (control1 U)`), so the
claim that the 2-control path uses Context A is false on the code. -/
theorem c3_counterexample :
    build 2 1 =
      [Op.applyGate 1 0 (GateExpr.control1 (GateExpr.pow4 GateExpr.baseGate)),
       Op.toggle 0 1,
       Op.applyGate 1 0 (GateExpr.dagger (GateExpr.control1 (GateExpr.pow4 GateExpr.baseGate))),
       Op.toggle 0 1,
       Op.applyGate 0 0 (GateExpr.control1 (GateExpr.pow4 GateExpr.baseGate))]
      ∧ get_V_operator false = GateExpr.pow4 (GateExpr.control1 GateExpr.baseGate)
      ∧ GateExpr.control1 (GateExpr.pow4 GateExpr.baseGate)
          ≠ GateExpr.pow4 (GateExpr.control1 GateExpr.baseGate) := by
  decide

/-- C3 (amended): every root operator applied by the 2-control synthesizer is
`_get_V_instruction`'s Context B construction (or its inverse): the principal
fourth root of U is taken first, and the single control added afterwards;
the Context A construction `_get_V_operator` is not the one used. -/
theorem c3_two_ctrl_uses_instruction (m c t : Nat) (g : GateExpr)
    (h : Op.applyGate c t g ∈ build 2 m) :
    g = get_V_instruction false ∨ g = get_V_instruction true := by
  rw [show build 2 m = emit_2ctrl m from rfl] at h
  unfold emit_2ctrl at h
  simp only [List.mem_append, List.mem_map, List.mem_singleton, List.mem_range] at h
  rcases h with ((((⟨a, _, ha⟩ | h1) | ⟨a, _, ha⟩) | h2) | ⟨a, _, ha⟩) <;>
    first
      | (cases ha; exact Or.inl rfl)
      | (cases ha; exact Or.inr rfl)
      | cases h1
      | cases h2

theorem c3_witness :
    get_V_instruction false = get_V_instruction false ∨
      get_V_instruction false = get_V_instruction true :=
  c3_two_ctrl_uses_instruction 1 1 0 (get_V_instruction false) (by decide)

/-- C4 (counterexample): for n = 3 controls and one target the code emits 6
toggles, not `2^(3-1) - 2 = 2` as the claim (and the `_general_version`
docstring) states. -/
theorem c4_counterexample :
    toggleCount (build 3 1) = 6 ∧ 2 ^ (3 - 1) - 2 = 2 ∧ (6 : Nat) ≠ 2 := by
  decide

/-- C4 (amended): for n ≥ 3 controls the Gray-code synthesizer emits exactly
`2^n - 2` toggle operations — one per loop iteration `i ∈ [2, 2^n - 1]` —
independent of the target count m. -/
theorem c4_toggle_count (n m : Nat) (h : 3 ≤ n) :
    toggleCount (build n m) = 2 ^ n - 2 := by
  have hn2 : n ≠ 2 := by omega
  unfold toggleCount build
  rw [if_neg hn2, emit_general_eq]
  unfold emitSteps
  rw [countP_flatMap]
  have hmap : ((List.range (2 ^ n - 1)).map fun k => (stepOps m (gray k) (k + 1)).countP isToggle)
      = (List.range (2 ^ n - 1)).map fun k => if k = 0 then 0 else 1 := by
    apply List.map_congr_left
    intro k _
    exact countP_stepOps_toggle m k
  rw [hmap, sum_map_ite]
  have := Nat.two_pow_pos n
  omega

theorem c4_witness : toggleCount (build 3 5) = 2 ^ 3 - 2 :=
  c4_toggle_count 3 5 (by decide)

/-- C5: for n ≥ 3 controls and m targets the Gray-code synthesizer emits
exactly `(2^n - 1) * m` controlled-root applications, and they are precisely
one per nonzero Gray-code step per target, on the control qubit holding the
step's most significant set bit, with variant V when the popcount of the
step's code is odd and V† when it is even. -/
theorem c5_root_ops (n m : Nat) (h : 3 ≤ n) :
    rootCount (build n m) = (2 ^ n - 1) * m
      ∧ (build n m).filter isApplyGate = rootOpsSpec n m := by
  have hn2 : n ≠ 2 := by omega
  have hfilter : (build n m).filter isApplyGate = rootOpsSpec n m := by
    unfold build
    rw [if_neg hn2, emit_general_eq]
    unfold emitSteps rootOpsSpec
    rw [filter_flatMap]
    exact flatMap_congr_left _ _ _ fun k _ => filter_stepOps_apply m k
  refine ⟨?_, hfilter⟩
  unfold rootCount
  rw [List.countP_eq_length_filter, hfilter]
  unfold rootOpsSpec
  rw [List.length_flatMap]
  simp only [Function.comp_def]
  have hmap : ((List.range (2 ^ n - 1)).map fun k => ((List.range m).map fun t =>
        Op.applyGate (bit_length (gray (k + 1)) - 1) t
          (get_V_instruction (bit_count (gray (k + 1)) % 2 == 0))).length)
      = (List.range (2 ^ n - 1)).map fun _ => m := by
    apply List.map_congr_left
    intro k _
    rw [List.length_map, List.length_range]
  rw [hmap, sum_map_const]

theorem c5_witness :
    rootCount (build 3 2) = (2 ^ 3 - 1) * 2
      ∧ (build 3 2).filter isApplyGate = rootOpsSpec 3 2 :=
  c5_root_ops 3 2 (by decide)

/-- C6: with exactly 2 controls the emitted sequence is — in this order —
V on control 1 for every target, one toggle (0,1), V† on control 1 for every
target, a second toggle (0,1), and V on control 0 for every target, so it has
exactly 2 toggles and `3 * m` controlled roots, the two toggles bracket
exactly the V† applications, and the per-target relative order
V(c1), Toggle, V†(c1), Toggle, V(c0) is preserved. -/
theorem c6_two_ctrl_structure (m : Nat) :
    build 2 m =
      ((List.range m).map fun t => Op.applyGate 1 t (get_V_instruction false))
        ++ [Op.toggle 0 1]
        ++ ((List.range m).map fun t => Op.applyGate 1 t (get_V_instruction true))
        ++ [Op.toggle 0 1]
        ++ ((List.range m).map fun t => Op.applyGate 0 t (get_V_instruction false))
      ∧ toggleCount (build 2 m) = 2 ∧ rootCount (build 2 m) = 3 * m := by
  refine ⟨rfl, ?_, ?_⟩
  · unfold toggleCount
    rw [show build 2 m = emit_2ctrl m from rfl]
    unfold emit_2ctrl
    simp [List.countP_append, List.countP_cons, isToggle, countP_comp_toggle]
  · unfold rootCount
    rw [show build 2 m = emit_2ctrl m from rfl]
    unfold emit_2ctrl
    simp [List.countP_append, List.countP_cons, isApplyGate, countP_comp_apply]
    omega

/-- C7: running the emitted sequence on any computational-basis control state
leaves every control qubit in its original basis state: the 2-control path's
two toggles cancel, and in the Gray-code path every block of toggles
telescopes to the identity. -/
theorem c7_controls_restored (n m : Nat) (h : 2 ≤ n) (x : Nat → Bool) (e : Nat → ℚ) :
    (runOps (build n m) ⟨x, e⟩).ctrl = x := by
  rw [runOps_ctrl]
  show ctrlFold (build n m) x = x
  by_cases hn : n = 2
  · subst hn
    rw [show build 2 m = emit_2ctrl m from rfl]
    unfold emit_2ctrl
    rw [ctrlFold_append, ctrlFold_append, ctrlFold_append, ctrlFold_append, ctrlFold_gates]
    rw [show ∀ c, ctrlFold [Op.toggle 0 1] c =
        Function.update c 1 (Bool.xor (c 0) (c 1)) from fun c => rfl]
    rw [ctrlFold_gates]
    rw [show ∀ c, ctrlFold [Op.toggle 0 1] c =
        Function.update c 1 (Bool.xor (c 0) (c 1)) from fun c => rfl]
    rw [Function.update_noteq (by omega : (0 : Nat) ≠ 1), Function.update_same,
      Function.update_idem, ctrlFold_gates]
    have hb : Bool.xor (x 0) (Bool.xor (x 0) (x 1)) = x 1 := by
      generalize x 0 = a
      generalize x 1 = b
      revert a b
      decide
    rw [hb]
    exact Function.update_eq_self _ _
  · rw [show build n m = emit_general n m by unfold build; rw [if_neg hn]]
    exact ctrlFold_emit_general n m x

theorem c7_witness :
    (runOps (build 3 2) ⟨fun j => decide (j % 2 = 0), fun _ => 0⟩).ctrl =
      fun j => decide (j % 2 = 0) :=
  c7_controls_restored 3 2 (by decide) (fun j => decide (j % 2 = 0)) (fun _ => 0)

/-- C8: calling `mcx` with a mode outside the enumerated valid set fails with
the `ValueError` whose message lists the enumerated valid mode names
(`all_modes`), and no enumerated valid mode name ever produces that error. -/
theorem c8_unknown_mode (ctrls : List Nat) (tgt : Nat) (anc : Option (List Nat))
    (mode : String) (h : mode ∉ valid_modes) :
    mcx ctrls tgt anc mode = Except.error (MCXError.unsupportedMode mode valid_modes)
      ∧ ∀ mode' ∈ valid_modes, ∀ anc',
          isUnsupportedModeErr (mcx ctrls tgt anc' mode') = false :=
  ⟨mcx_eq_not_found ctrls tgt anc mode (find_mode_none _ mode h),
   fun mode' h' anc' => not_unsupported_of_mem ctrls tgt anc' mode' h'⟩

theorem c8_witness :
    mcx [0, 1] 2 none "foo" =
      Except.error (MCXError.unsupportedMode "foo" valid_modes) :=
  (c8_unknown_mode [0, 1] 2 none "foo" (by decide)).1

/-- C9: `mcx` accepts exactly the seven mode names "noancilla", "recursion",
"v-chain", "v-chain-dirty", "advanced", "basic" and "basic-dirty-ancilla" —
the unknown-mode error is raised iff the mode string is outside these — and
the legacy names map to the recursion and v-chain implementations. -/
theorem c9_legacy_modes (ctrls : List Nat) (tgt : Nat) (anc : Option (List Nat))
    (mode : String) :
    (isUnsupportedModeErr (mcx ctrls tgt anc mode) = true ↔ mode ∉ valid_modes)
      ∧ ((available_implementations ctrls.length).find? (fun q => q.1 == "advanced")
          = some ("advanced", MCXGate.recursion ctrls.length))
      ∧ ((available_implementations ctrls.length).find? (fun q => q.1 == "basic")
          = some ("basic", MCXGate.vchain ctrls.length false))
      ∧ ((available_implementations ctrls.length).find? (fun q => q.1 == "basic-dirty-ancilla")
          = some ("basic-dirty-ancilla", MCXGate.vchain ctrls.length true)) := by
  refine ⟨⟨?_, ?_⟩, rfl, rfl, rfl⟩
  · intro htrue hmem
    rw [not_unsupported_of_mem ctrls tgt anc mode hmem] at htrue
    exact Bool.false_ne_true htrue
  · intro hnot
    rw [mcx_eq_not_found ctrls tgt anc mode (find_mode_none _ mode hnot)]
    rfl

/-- C10: when the selected gate requires `k > 0` ancillas, `mcx` succeeds
whenever at least `k` ancillas are supplied — silently truncating the list to
its first `k` elements in the appended qubit arguments — and fails only with
`ValueError` when fewer than `k` are supplied or with `AttributeError` when
none are supplied at all. -/
theorem c10_ancilla_handling (ctrls : List Nat) (tgt : Nat) (anc : List Nat)
    (mode : String) (q : String × MCXGate)
    (hq : (available_implementations ctrls.length).find? (fun r => r.1 == mode) = some q)
    (hreq : 0 < num_ancilla_qubits q.2) :
    (num_ancilla_qubits q.2 ≤ anc.length →
        mcx ctrls tgt (some anc) mode =
          Except.ok (q.2, ctrls ++ [tgt] ++ anc.take (num_ancilla_qubits q.2)))
      ∧ (anc.length < num_ancilla_qubits q.2 →
          mcx ctrls tgt (some anc) mode =
            Except.error (MCXError.tooFewAncillas (num_ancilla_qubits q.2) anc.length))
      ∧ mcx ctrls tgt none mode =
          Except.error (MCXError.noAncillasProvided (num_ancilla_qubits q.2)) := by
  refine ⟨?_, ?_, mcx_found_no_anc ctrls tgt mode q hq hreq⟩
  · intro hlen
    rw [mcx_found_some_anc ctrls tgt anc mode q hq hreq, if_neg (by omega)]
  · intro hlen
    rw [mcx_found_some_anc ctrls tgt anc mode q hq hreq, if_pos hlen]

theorem c10_witness :
    mcx [0, 1, 2, 3] 4 (some [9, 8, 7]) "v-chain" =
      Except.ok (MCXGate.vchain 4 false, [0, 1, 2, 3, 4, 9, 8]) :=
  (c10_ancilla_handling [0, 1, 2, 3] 4 [9, 8, 7] "v-chain"
    ("v-chain", MCXGate.vchain 4 false) rfl (by decide)).1 (by decide)

end ExpandedMCGate
